import Mathlib

/-!
Shallow embedding of the `enumhelper` Go package: a bitfield engine
(`MakeBitfieldType`, rendering, parsing, JSON) and a plain-enum helper
(`ParseEnum`, `UnmarshalEnumFromJSON`, `DereferenceEnumData`), together with
the shared error taxonomy.  Go strings are modelled as Lean `String`
(character-level; byte-level slicing of the source coincides with
character-level slicing on ASCII data).  Go `uint64`/`uint` are modelled as
`Nat`; every arithmetic operation used by the source (bitwise or/and of
64-bit masks) stays below `2 ^ 64`, so no explicit wrap-around is needed.
Go `panic` and Go `error` returns are modelled with `Except` / `Option`
error components.
-/

namespace Enumhelper

/-- Error taxonomy of the package.  `InvalidBitfieldNameError` is kept as a
separate structure because `FromString` aggregates a list of exactly these
into a `multierror.Error`; the other error kinds never aggregate. -/
structure InvalidBitfieldNameError where
  TypeName : String
  Name : String
  Allowed : List String
deriving DecidableEq

/-- The error values the package can return: `IsNullError`,
`InvalidEnumNameError`, `InvalidEnumValueError`, `InvalidBitfieldNameError`,
`InvalidBitfieldIndexError`, the `multierror.Error` aggregate (which in this
package only ever holds `InvalidBitfieldNameError` values), and an opaque
JSON-decode failure (the `err0` surfaced by the `FromJSON` functions). -/
inductive ErrorVal where
  | isNull
  | invalidEnumName (typeName name : String) (allowed : List String)
  | invalidEnumValue (typeName : String) (value limit : Nat)
  | invalidBitfieldName (e : InvalidBitfieldNameError)
  | invalidBitfieldIndex (typeName : String) (index limit : Nat)
  | combined (errs : List InvalidBitfieldNameError)
  | jsonError (raw : String)
deriving DecidableEq

/-- Go `str[i:j]` (byte slicing, modelled at character level). -/
def goSlice (s : String) (i j : Nat) : String :=
  String.mk ((s.data.take j).drop i)

/-- Go `strings.HasPrefix pfx s` (argument order: pattern first). -/
def goHasPfx (pfx s : String) : Bool :=
  pfx.data.isPrefixOf s.data

/-- Go `strings.HasSuffix sfx s` (argument order: pattern first). -/
def goHasSfx (sfx s : String) : Bool :=
  sfx.data.isSuffixOf s.data

/-- Value of one character as a digit, as `strconv.ParseUint` accepts them
(decimal digits, then letters of either case). -/
def digitVal (c : Char) : Option Nat :=
  if '0' ≤ c ∧ c ≤ '9' then some (c.toNat - 48)
  else if 'a' ≤ c ∧ c ≤ 'z' then some (c.toNat - 87)
  else if 'A' ≤ c ∧ c ≤ 'Z' then some (c.toNat - 55)
  else none

/-- Digit-string evaluation in a given base; fails on an empty string or on
any character that is not a digit of the base. -/
def parseDigits (base : Nat) (s : List Char) : Option Nat :=
  if s = [] then none
  else
    s.foldl
      (fun acc c =>
        match acc, digitVal c with
        | some a, some d => if d < base then some (a * base + d) else none
        | _, _ => none)
      (some 0)

/-- Go `strconv.ParseUint(s, 0, 64)`: base inferred from a `0x`/`0o`/`0b`
prefix, a bare leading `0` meaning octal, otherwise decimal; the value must
fit in 64 bits.  (The model omits `_` digit separators, which never occur in
strings this package produces.) -/
def goParseUint64 (s : String) : Option Nat :=
  let res :=
    if goHasPfx "0x" s ∨ goHasPfx "0X" s then parseDigits 16 (s.data.drop 2)
    else if goHasPfx "0o" s ∨ goHasPfx "0O" s then parseDigits 8 (s.data.drop 2)
    else if goHasPfx "0b" s ∨ goHasPfx "0B" s then parseDigits 2 (s.data.drop 2)
    else if goHasPfx "0" s ∧ 1 < s.length then parseDigits 8 (s.data.drop 1)
    else parseDigits 10 s.data
  match res with
  | some n => if n < 2 ^ 64 then some n else none
  | none => none

/-- Go `strconv.FormatUint(n, 16)`: lowercase hexadecimal, no prefix. -/
def formatUintHex (n : Nat) : String :=
  String.mk (Nat.toDigits 16 n)

/-- Models `json.Unmarshal(raw, &str)` for a Go `string` target: `raw` must
be a double-quoted JSON string literal.  The model covers escape-free
literals, the only ones exercised by this package's round trips. -/
def jsonDecodeString (raw : String) : Option String :=
  if 2 ≤ raw.length ∧ raw.data.head? = some '"' ∧ raw.data.getLast? = some '"' ∧
      (goSlice raw 1 (raw.length - 1)).data.all (fun c => c ≠ '"' ∧ c ≠ '\\') then
    some (goSlice raw 1 (raw.length - 1))
  else none

/-- Models `json.Unmarshal(raw, &num)` for a Go `uint`/`uint64` target:
`raw` must be a JSON number that is an unsigned decimal integer (no leading
zero except `0` itself) fitting in 64 bits. -/
def jsonDecodeUint (raw : String) : Option Nat :=
  if raw ≠ "" ∧ raw.data.all (fun c => '0' ≤ c ∧ c ≤ '9') ∧
      (raw = "0" ∨ raw.data.head? ≠ some '0') then
    match parseDigits 10 raw.data with
    | some n => if n < 2 ^ 64 then some n else none
    | none => none
  else none

/-- The package-level `nullBytes` variable, `[]byte("null")`. -/
def nullBytes : String := "null"

/-- Go `strings.ToLower`, modelled as character-wise ASCII lowercasing. -/
def goToLower (s : String) : String :=
  String.mk (s.data.map Char.toLower)

/-- Splitting on the separator `"|"`, as `strings.Split(str, "|")` does:
every occurrence of `'|'` starts a new (possibly empty) piece, and the empty
string yields the single piece `""`. -/
def splitPipeAux : List Char → List Char → List (List Char)
  | [], acc => [acc.reverse]
  | c :: rest, acc =>
    if c = '|' then acc.reverse :: splitPipeAux rest []
    else splitPipeAux rest (c :: acc)

/-- Go `strings.Split(str, "|")`. -/
def goSplitPipe (s : String) : List String :=
  (splitPipeAux s.data []).map String.mk

/-- Go map from strings, modelled as a lookup function; `insert` is
last-write-wins, as for a Go map assignment. -/
abbrev StrMap (α : Type) : Type := String → Option α

def StrMap.empty {α : Type} : StrMap α := fun _ => none

def StrMap.insert {α : Type} (m : StrMap α) (key : String) (value : α) : StrMap α :=
  fun q => if q = key then some value else m q

/-- Structure `BitfieldData` holds data about one particular bitfield bit. -/
structure BitfieldData where
  GoName : String
  Name : String
  Aliases : List String
deriving DecidableEq

/-- Structure `AnnotatedBitfieldData` extends `BitfieldData` with the bit index
(0–63) and the bit value `1 <<< Index` (the embedded struct is flattened). -/
structure AnnotatedBitfieldData where
  GoName : String
  Name : String
  Aliases : List String
  Index : Nat
  Bit : Nat
deriving DecidableEq

instance : Inhabited AnnotatedBitfieldData := ⟨⟨"", "", [], 0, 1⟩⟩

/-- Structure `BitfieldType` holds data about a bitfield type: its Go type name, the
dense 64-slot table, the example-names list, and the name index. -/
structure BitfieldType where
  TypeName : String
  Data : List AnnotatedBitfieldData
  Names : List String
  ByName : StrMap AnnotatedBitfieldData

/-- The descriptor used for slot `index`: `in[index]` when `index` is below
`min (len in) 64` (the source truncates the input length to 64), the
zero-valued `BitfieldData` otherwise. -/
def slotData (input : List BitfieldData) (index : Nat) : BitfieldData :=
  if index < min input.length 64 then input.getD index ⟨"", "", []⟩ else ⟨"", "", []⟩

/-- The `AnnotatedBitfieldData` built for slot `index` inside the
construction loop of `MakeBitfieldType`. -/
def annotate (input : List BitfieldData) (index : Nat) : AnnotatedBitfieldData :=
  { GoName := (slotData input index).GoName
    Name := (slotData input index).Name
    Aliases := (slotData input index).Aliases
    Index := index
    Bit := 2 ^ index }

/-- All 64 annotated slots, in ascending index order (the construction loop
`for index := 0; index < 64; index++`). -/
def annotatedSlots (input : List BitfieldData) : List AnnotatedBitfieldData :=
  (List.range 64).map (annotate input)

/-- The display name recorded in `Names` for a used slot: `data.Name`,
falling back to `data.GoName` when `Name` is empty. -/
def displayName (data : AnnotatedBitfieldData) : String :=
  if data.Name = "" then data.GoName else data.Name

/-- One loop iteration's insertions into `ByName`: nothing for an unnamed
slot; otherwise the Go name, the display name and every alias, each both
verbatim and lowercased, in the source's insertion order. -/
def insertSlot (m : StrMap AnnotatedBitfieldData) (ptr : AnnotatedBitfieldData) :
    StrMap AnnotatedBitfieldData :=
  if ptr.GoName = "" ∧ ptr.Name = "" then m
  else
    let m1 := if ptr.GoName = "" then m
      else (m.insert ptr.GoName ptr).insert (goToLower ptr.GoName) ptr
    let m2 := if ptr.Name = "" then m1
      else (m1.insert ptr.Name ptr).insert (goToLower ptr.Name) ptr
    ptr.Aliases.foldl (fun acc a => (acc.insert a ptr).insert (goToLower a) ptr) m2

/-- Function `MakeBitfieldType` initializes and returns a `BitfieldType`.  The source
fills `Data`, `Names` and `ByName` in one loop over indices 0–63; the three
fields are independent, so each is built here by its own pass over the same
annotated slots, in the same order. -/
def MakeBitfieldType (typeName : String) (input : List BitfieldData) : BitfieldType :=
  { TypeName := typeName
    Data := annotatedSlots input
    Names := (annotatedSlots input).filterMap
      (fun ptr => if ptr.GoName = "" ∧ ptr.Name = "" then none else some (displayName ptr))
    ByName := (annotatedSlots input).foldl insertSlot StrMap.empty }

/-- Method `Get` returns `bitfield.Data[index]`, or panics (modelled as `.error`)
with `InvalidBitfieldIndexError` when `index ≥ 64`. -/
def BitfieldType.Get (bitfield : BitfieldType) (index : Nat) :
    Except ErrorVal AnnotatedBitfieldData :=
  if 64 ≤ index then
    .error (.invalidBitfieldIndex bitfield.TypeName index 64)
  else
    .ok (bitfield.Data.getD index default)

/-- Method `toStringImpl`: scan the 64 slots in ascending order (`ForEach`); a set
bit whose `fn1` name is nonempty contributes that name as a piece, a set bit
whose `fn1` name is empty is ORed into the remnant; afterwards, if the
remnant is nonzero or no pieces were produced, the nonempty `fn2` token is
appended; the pieces are joined with `"|"`. -/
def BitfieldType.toStringImpl (bitfield : BitfieldType) (value : Nat)
    (fn1 : AnnotatedBitfieldData → String) (fn2 : Nat → String) : String :=
  let scan := bitfield.Data.foldl
    (fun (acc : List String × Nat) data =>
      if value &&& data.Bit ≠ 0 then
        if fn1 data = "" then (acc.1, acc.2 ||| data.Bit)
        else (acc.1 ++ [fn1 data], acc.2)
      else acc)
    ([], 0)
  let pieces :=
    if scan.2 ≠ 0 ∨ scan.1 = [] then
      if fn2 scan.2 = "" then scan.1 else scan.1 ++ [fn2 scan.2]
    else scan.1
  String.intercalate "|" pieces

/-- Method `ToGoString` generates a Go string representation: symbolic names for
named set bits, `TypeName(0)` / `TypeName(0x<hex>)` for the remnant. -/
def BitfieldType.ToGoString (bitfield : BitfieldType) (value : Nat) : String :=
  bitfield.toStringImpl value
    (fun data => data.GoName)
    (fun remnant =>
      if remnant = 0 then bitfield.TypeName ++ "(0)"
      else bitfield.TypeName ++ "(0x" ++ formatUintHex remnant ++ ")")

/-- Method `ToString` generates a display string representation: display names for
named set bits, `0` / `0x<hex>` for the remnant. -/
def BitfieldType.ToString (bitfield : BitfieldType) (value : Nat) : String :=
  bitfield.toStringImpl value
    (fun data => data.Name)
    (fun remnant => if remnant = 0 then "0" else "0x" ++ formatUintHex remnant)

/-- The two-step name-index lookup inside `parseItem`: the key verbatim
first, then its lowercased form. -/
def BitfieldType.lookupName (bitfield : BitfieldType) (str : String) :
    Option AnnotatedBitfieldData :=
  match bitfield.ByName str with
  | some data => some data
  | none => bitfield.ByName (goToLower str)

/-- Method `parseItem`: if `str` starts with `TypeName + "("` and ends with `")"`,
slice `str[i:j]` where the source sets `i := uint(len(strSuffix))` (the
length of `")"`, i.e. 1) and `j := len(str) - len(strSuffix)`; then look the
result up in the name index (verbatim, then lowercased), then compare it
with `"0"`, then hand it to `strconv.ParseUint(_, 0, 64)`. -/
def BitfieldType.parseItem (bitfield : BitfieldType) (str : String) : Option Nat :=
  let pfx := bitfield.TypeName ++ "("
  let sfx := ")"
  let str1 :=
    if goHasPfx pfx str ∧ goHasSfx sfx str then
      goSlice str sfx.length (str.length - sfx.length)
    else str
  match bitfield.lookupName str1 with
  | some data => some data.Bit
  | none =>
    if str1 = "0" then some 0
    else goParseUint64 str1

/-- The `InvalidBitfieldNameError` that `FromString` builds for a piece that
`parseItem` rejects. -/
def mkNameError (bitfield : BitfieldType) (piece : String) : InvalidBitfieldNameError :=
  { TypeName := bitfield.TypeName, Name := piece, Allowed := bitfield.Names }

/-- Method `FromString` parses the string representation of a bitfield value: the
whole string as one item first; otherwise split on `"|"`, OR the values of
the pieces that parse, and collect an `InvalidBitfieldNameError` per piece
that does not; zero collected errors means success, one is returned alone,
two or more are wrapped in a `multierror.Error`. -/
def BitfieldType.FromString (bitfield : BitfieldType) (str : String) :
    Nat × Option ErrorVal :=
  match bitfield.parseItem str with
  | some u64 => (u64, none)
  | none =>
    let scan := (goSplitPipe str).foldl
      (fun (acc : Nat × List InvalidBitfieldNameError) piece =>
        match bitfield.parseItem piece with
        | some u64 => (acc.1 ||| u64, acc.2)
        | none => (acc.1, acc.2 ++ [mkNameError bitfield piece]))
      (0, [])
    match scan.2 with
    | [] => (scan.1, none)
    | [e] => (0, some (.invalidBitfieldName e))
    | e1 :: e2 :: rest => (0, some (.combined (e1 :: e2 :: rest)))

/-- Method `FromJSON` unmarshals a bitfield value from JSON: the literal `null`
yields `IsNullError`; a JSON string is handed to `FromString`; otherwise a
JSON unsigned integer is returned verbatim; otherwise the string-decode
error `err0` is surfaced.  (A nil byte slice panics in the source; the model
takes the non-nil contents directly.) -/
def BitfieldType.FromJSON (bitfield : BitfieldType) (raw : String) :
    Nat × Option ErrorVal :=
  if raw = nullBytes then (0, some .isNull)
  else
    match jsonDecodeString raw with
    | some str => bitfield.FromString str
    | none =>
      match jsonDecodeUint raw with
      | some u64 => (u64, none)
      | none => (0, some (.jsonError raw))

/-- Structure `EnumData` holds data about one particular enum value; `JSON = none`
models a nil `[]byte`. -/
structure EnumData where
  GoName : String
  Name : String
  JSON : Option String
  Aliases : List String
deriving DecidableEq

instance : Inhabited EnumData := ⟨⟨"", "", none, []⟩⟩

/-- Function `MakeAllowedEnumNames` returns the canonical string representations, in
ordinal order. -/
def MakeAllowedEnumNames (enumData : List EnumData) : List String :=
  enumData.map (fun row => row.Name)

/-- Function `DereferenceEnumData` returns `enumData[value]`, or panics (modelled as
`.error`) with `InvalidEnumValueError` when `value ≥ len(enumData)`. -/
def DereferenceEnumData (enumName : String) (enumData : List EnumData) (value : Nat) :
    Except ErrorVal EnumData :=
  if enumData.length ≤ value then
    .error (.invalidEnumValue enumName value enumData.length)
  else .ok (enumData.getD value default)

/-- Go `strings.EqualFold`, modelled as equality after ASCII lowercasing. -/
def goEqualFold (a b : String) : Bool :=
  goToLower a == goToLower b

/-- One row's match test inside the `ParseEnum` loop: the display name, the
Go name, then every alias, each compared with `strings.EqualFold`. -/
def enumRowMatches (str : String) (row : EnumData) : Bool :=
  goEqualFold str row.Name || goEqualFold str row.GoName ||
    row.Aliases.any (fun a => goEqualFold str a)

/-- Function `ParseEnum` scans the rows in ordinal order and returns the first index
whose row matches `str`; otherwise it returns 0 with
`InvalidEnumNameError`. -/
def ParseEnum (enumName : String) (enumData : List EnumData) (str : String) :
    Nat × Option ErrorVal :=
  match enumData.findIdx? (enumRowMatches str) with
  | some index => (index, none)
  | none => (0, some (.invalidEnumName enumName str (MakeAllowedEnumNames enumData)))

/-- Function `UnmarshalEnumFromJSON`: the literal `null` yields `IsNullError`; a raw
byte-equal match against a row's explicit `JSON` literal yields that row's
ordinal; a JSON string is handed to `ParseEnum`; a JSON unsigned integer is
range-checked against the row count and returned verbatim when in range;
otherwise the string-decode error `err0` is surfaced. -/
def UnmarshalEnumFromJSON (enumName : String) (enumData : List EnumData) (raw : String) :
    Nat × Option ErrorVal :=
  if raw = nullBytes then (0, some .isNull)
  else
    match enumData.findIdx? (fun row => row.JSON == some raw) with
    | some index => (index, none)
    | none =>
      match jsonDecodeString raw with
      | some str => ParseEnum enumName enumData str
      | none =>
        match jsonDecodeUint raw with
        | some num =>
          if enumData.length ≤ num then
            (0, some (.invalidEnumValue enumName num enumData.length))
          else (num, none)
        | none => (0, some (.jsonError raw))

/-- The `Perm` example bitfield of the spec: bits 0, 1, 2 named
read/write/exec. -/
def permData : List BitfieldData :=
  [{ GoName := "Read", Name := "read", Aliases := ["r"] },
   { GoName := "Write", Name := "write", Aliases := ["w"] },
   { GoName := "Exec", Name := "exec", Aliases := ["x"] }]

/-- The `Perm` example bitfield type. -/
def PermBF : BitfieldType := MakeBitfieldType "Perm" permData

/-- The `Color` example enum of the spec: rows red/green/blue. -/
def colorRows : List EnumData :=
  [{ GoName := "ColorRed", Name := "red", JSON := none, Aliases := [] },
   { GoName := "ColorGreen", Name := "green", JSON := none, Aliases := [] },
   { GoName := "ColorBlue", Name := "blue", JSON := none, Aliases := [] }]

lemma fromString_fst_zero_of_err (bitfield : BitfieldType) (str : String) :
    (bitfield.FromString str).2.isSome → (bitfield.FromString str).1 = 0 := by
  unfold BitfieldType.FromString
  split
  · simp
  · dsimp only
    split <;> simp

lemma fromJSON_fst_zero_of_err (bitfield : BitfieldType) (raw : String) :
    (bitfield.FromJSON raw).2.isSome → (bitfield.FromJSON raw).1 = 0 := by
  unfold BitfieldType.FromJSON
  split
  · simp
  · split
    · exact fun h => fromString_fst_zero_of_err bitfield _ h
    · split <;> simp

lemma parseEnum_fst_zero_of_err (enumName : String) (enumData : List EnumData)
    (str : String) :
    (ParseEnum enumName enumData str).2.isSome → (ParseEnum enumName enumData str).1 = 0 := by
  unfold ParseEnum
  split <;> simp

lemma unmarshalEnum_fst_zero_of_err (enumName : String) (enumData : List EnumData)
    (raw : String) :
    (UnmarshalEnumFromJSON enumName enumData raw).2.isSome →
      (UnmarshalEnumFromJSON enumName enumData raw).1 = 0 := by
  unfold UnmarshalEnumFromJSON
  split
  · simp
  · split
    · simp
    · split
      · exact fun h => parseEnum_fst_zero_of_err enumName enumData _ h
      · split
        · split <;> simp
        · simp

/-- C10: whenever bitfield `FromString`, bitfield `FromJSON` or enum
`UnmarshalEnumFromJSON` returns an error, the numeric value returned
alongside it is exactly 0 — never a partially accumulated mask or a
partially decoded ordinal. -/
theorem error_results_carry_zero (bitfield : BitfieldType) (str raw : String)
    (enumName : String) (enumData : List EnumData) (rawE : String) :
    ((bitfield.FromString str).2.isSome → (bitfield.FromString str).1 = 0) ∧
    ((bitfield.FromJSON raw).2.isSome → (bitfield.FromJSON raw).1 = 0) ∧
    ((UnmarshalEnumFromJSON enumName enumData rawE).2.isSome →
      (UnmarshalEnumFromJSON enumName enumData rawE).1 = 0) :=
  ⟨fromString_fst_zero_of_err bitfield str, fromJSON_fst_zero_of_err bitfield raw,
    unmarshalEnum_fst_zero_of_err enumName enumData rawE⟩

/-- Witness for C10 at concrete failing inputs: an unknown bitfield name, a
JSON array fed to the bitfield decoder, and an unknown enum name. -/
theorem error_results_carry_zero_witness :
    ((PermBF.FromString "foo|bogus").2.isSome = true ∧ (PermBF.FromString "foo|bogus").1 = 0) ∧
    ((PermBF.FromJSON "[1]").2.isSome = true ∧ (PermBF.FromJSON "[1]").1 = 0) ∧
    ((UnmarshalEnumFromJSON "Color" colorRows "\"bogus\"").2.isSome = true ∧
      (UnmarshalEnumFromJSON "Color" colorRows "\"bogus\"").1 = 0) :=
  ⟨⟨by decide, (error_results_carry_zero PermBF "foo|bogus" "[1]" "Color" colorRows
      "\"bogus\"").1 (by decide)⟩,
   ⟨by decide, (error_results_carry_zero PermBF "foo|bogus" "[1]" "Color" colorRows
      "\"bogus\"").2.1 (by decide)⟩,
   ⟨by decide, (error_results_carry_zero PermBF "foo|bogus" "[1]" "Color" colorRows
      "\"bogus\"").2.2 (by decide)⟩⟩

lemma annotatedSlots_getElem? (input : List BitfieldData) (index : Nat) (h : index < 64) :
    (annotatedSlots input)[index]? = some (annotate input index) := by
  unfold annotatedSlots
  rw [List.getElem?_map, List.getElem?_range h]
  rfl

/-- C8: bitfield `Get` rejects every index ≥ 64 (in particular exactly 64)
with an out-of-range error carrying the index and the limit 64, and returns
the stored annotated slot below 64; enum `DereferenceEnumData` rejects every
ordinal ≥ row count (in particular exactly the row count) with a value-range
error carrying the ordinal and the row count as exclusive limit, and returns
the stored row below it. -/
theorem get_and_resolve_range_check (typeName : String) (input : List BitfieldData)
    (index : Nat) (enumName : String) (enumData : List EnumData) (value : Nat) :
    (64 ≤ index →
      (MakeBitfieldType typeName input).Get index =
        .error (.invalidBitfieldIndex typeName index 64)) ∧
    (index < 64 →
      (MakeBitfieldType typeName input).Get index = .ok (annotate input index)) ∧
    ((MakeBitfieldType typeName input).Get 64 =
      .error (.invalidBitfieldIndex typeName 64 64)) ∧
    (enumData.length ≤ value →
      DereferenceEnumData enumName enumData value =
        .error (.invalidEnumValue enumName value enumData.length)) ∧
    (value < enumData.length →
      DereferenceEnumData enumName enumData value = .ok (enumData.getD value default)) ∧
    (DereferenceEnumData enumName enumData enumData.length =
      .error (.invalidEnumValue enumName enumData.length enumData.length)) := by
  refine ⟨fun h => ?_, fun h => ?_, ?_, fun h => ?_, fun h => ?_, ?_⟩
  · simp [BitfieldType.Get, MakeBitfieldType, h]
  · simp [BitfieldType.Get, MakeBitfieldType, Nat.not_le.mpr h,
      annotatedSlots_getElem? input index h]
  · simp [BitfieldType.Get, MakeBitfieldType]
  · simp [DereferenceEnumData, h]
  · simp [DereferenceEnumData, Nat.not_le.mpr h]
  · simp [DereferenceEnumData]

/-- Witness for C8 at concrete inputs: `Perm` at indices 64 and 2, `Color`
at ordinals 3 and 1. -/
theorem get_and_resolve_range_check_witness :
    (64 ≤ 64 ∧ PermBF.Get 64 = .error (.invalidBitfieldIndex "Perm" 64 64)) ∧
    (2 < 64 ∧ PermBF.Get 2 = .ok (annotate permData 2)) ∧
    (colorRows.length ≤ 3 ∧ DereferenceEnumData "Color" colorRows 3 =
      .error (.invalidEnumValue "Color" 3 colorRows.length)) ∧
    (1 < colorRows.length ∧ DereferenceEnumData "Color" colorRows 1 =
      .ok (colorRows.getD 1 default)) :=
  ⟨⟨by decide, (get_and_resolve_range_check "Perm" permData 64 "Color" colorRows 3).1
      (by decide)⟩,
   ⟨by decide, (get_and_resolve_range_check "Perm" permData 2 "Color" colorRows 3).2.1
      (by decide)⟩,
   ⟨by decide, (get_and_resolve_range_check "Perm" permData 64 "Color" colorRows 3).2.2.2.1
      (by decide)⟩,
   ⟨by decide, (get_and_resolve_range_check "Perm" permData 64 "Color" colorRows 1).2.2.2.2.1
      (by decide)⟩⟩

/-- Modelled from the spec's description of `ParseOne`: the unwrap takes
exactly the wrapper off, so that the subsequent lookup, `"0"` check and
unsigned-integer parsing run on the string `inner` between `TypeName(` and
`)`.  This is the comparison point for the source's `parseItem`, whose slice
start is computed from the suffix length instead of the prefix length. -/
def parseItemSpecModel (bitfield : BitfieldType) (str : String) : Option Nat :=
  let pfx := bitfield.TypeName ++ "("
  let sfx := ")"
  let str1 :=
    if goHasPfx pfx str ∧ goHasSfx sfx str then
      goSlice str pfx.length (str.length - sfx.length)
    else str
  match bitfield.lookupName str1 with
  | some data => some data.Bit
  | none =>
    if str1 = "0" then some 0
    else goParseUint64 str1

/-- C1: the symbolic rendering of value 8 under the `Perm` type is the
remnant token `Perm(0x8)`, and `FromString` rejects that very token (the
unwrap inside `parseItem` drops only one leading character, so the lookup
runs on `erm(0x8`), returning 0 with an `InvalidBitfieldNameError` instead
of the original value 8: the symbolic round trip is not lossless. -/
theorem fromString_toGoString_not_roundtrip :
    PermBF.ToGoString 8 = "Perm(0x8)" ∧
    PermBF.FromString (PermBF.ToGoString 8) =
      (0, some (.invalidBitfieldName ⟨"Perm", "Perm(0x8)", ["read", "write", "exec"]⟩)) := by
  exact ⟨by decide, by decide⟩

/-- C2: the single-token resolver does not strip exactly the wrapper: on
`Perm(read)` and `Perm(0x8)` the source's `parseItem` fails (it looks up
`erm(read` and `erm(0x8`), while the resolver described by the spec — which
looks up the inner strings `read` and `0x8` — yields bit mask 1 and value 8
respectively. -/
theorem parseItem_does_not_strip_wrapper :
    PermBF.parseItem "Perm(read)" = none ∧
    parseItemSpecModel PermBF "Perm(read)" = some 1 ∧
    PermBF.parseItem "Perm(0x8)" = none ∧
    parseItemSpecModel PermBF "Perm(0x8)" = some 8 := by
  exact ⟨by decide, by decide, by decide, by decide⟩

/-- C7: for both the bitfield engine and the enum helper, `FromJSON` of the
JSON literal `null` returns the null-marker error together with the numeric
value 0. -/
theorem fromJSON_null_marker (bitfield : BitfieldType) (enumName : String)
    (enumData : List EnumData) :
    bitfield.FromJSON "null" = (0, some .isNull) ∧
    UnmarshalEnumFromJSON enumName enumData "null" = (0, some .isNull) := by
  constructor
  · simp [BitfieldType.FromJSON, nullBytes]
  · simp [UnmarshalEnumFromJSON, nullBytes]

lemma fromString_scan_eq (bitfield : BitfieldType) (pieces : List String)
    (acc : Nat) (errs : List InvalidBitfieldNameError) :
    pieces.foldl
      (fun (a : Nat × List InvalidBitfieldNameError) piece =>
        match bitfield.parseItem piece with
        | some u64 => (a.1 ||| u64, a.2)
        | none => (a.1, a.2 ++ [mkNameError bitfield piece]))
      (acc, errs) =
    (pieces.foldl
      (fun a piece =>
        match bitfield.parseItem piece with
        | some u64 => a ||| u64
        | none => a) acc,
     errs ++ (pieces.filter (fun piece => (bitfield.parseItem piece).isNone)).map
       (mkNameError bitfield)) := by
  induction pieces generalizing acc errs with
  | nil => simp
  | cons p rest ih =>
    cases hp : bitfield.parseItem p <;>
      simp [List.filter_cons, hp, ih]

/-- Modelled from the spec: the composite branch of `FromString` splits on
`"|"`, ORs together the pieces that parse, and aggregates one
`InvalidBitfieldNameError` per failing piece in left-to-right input order —
zero failures succeed, one failure is returned alone, two or more are
combined. -/
def fromStringPiecesModel (bitfield : BitfieldType) (str : String) : Nat × Option ErrorVal :=
  let pieces := goSplitPipe str
  let bad := pieces.filter (fun piece => (bitfield.parseItem piece).isNone)
  let accum := pieces.foldl
    (fun a piece =>
      match bitfield.parseItem piece with
      | some u64 => a ||| u64
      | none => a) 0
  match bad with
  | [] => (accum, none)
  | [piece] => (0, some (.invalidBitfieldName (mkNameError bitfield piece)))
  | p1 :: p2 :: rest =>
    (0, some (.combined ((p1 :: p2 :: rest).map (mkNameError bitfield))))

/-- C4: when whole-string single-token parsing fails, `FromString` behaves
exactly as the piecewise model: it splits on `"|"`, ORs the pieces that
parse, succeeds iff every piece parses, returns the single
`InvalidBitfieldNameError` when exactly one piece fails, and a combined
error holding one such error per bad piece in left-to-right order
otherwise. -/
theorem fromString_composite (bitfield : BitfieldType) (str : String)
    (h : bitfield.parseItem str = none) :
    bitfield.FromString str = fromStringPiecesModel bitfield str ∧
    ((bitfield.FromString str).2 = none ↔
      ∀ piece ∈ goSplitPipe str, (bitfield.parseItem piece).isSome) := by
  have hmain : bitfield.FromString str = fromStringPiecesModel bitfield str := by
    unfold BitfieldType.FromString fromStringPiecesModel
    rw [h]
    dsimp only
    rw [fromString_scan_eq]
    dsimp only
    rcases hbad : (goSplitPipe str).filter
        (fun piece => (bitfield.parseItem piece).isNone) with _ | ⟨p1, _ | ⟨p2, rest⟩⟩ <;>
      simp [hbad]
  refine ⟨hmain, ?_⟩
  rw [hmain]
  unfold fromStringPiecesModel
  dsimp only
  rcases hbad : (goSplitPipe str).filter
      (fun piece => (bitfield.parseItem piece).isNone) with _ | ⟨p1, bad'⟩
  · simp only [List.filter_eq_nil_iff] at hbad
    simp only [true_iff]
    intro piece hmem
    have := hbad piece hmem
    cases hcase : bitfield.parseItem piece <;> simp [hcase] at this ⊢
  · have hp1 : p1 ∈ (goSplitPipe str).filter
        (fun piece => (bitfield.parseItem piece).isNone) := by
      rw [hbad]; exact List.mem_cons_self p1 bad'
    rw [List.mem_filter] at hp1
    have hnone : bitfield.parseItem p1 = none := by
      cases hcase : bitfield.parseItem p1 <;> simp [hcase] at hp1 ⊢
    have hfalse : ¬ ∀ piece ∈ goSplitPipe str, (bitfield.parseItem piece).isSome = true := by
      intro hall
      have := hall p1 hp1.1
      rw [hnone] at this
      simp at this
    rcases bad' with _ | ⟨p2, rest⟩ <;> simp [hfalse]

/-- Witness for C4 at the spec's composite example: `read|bogus1|bogus2`
has two bad pieces and yields the combined error. -/
theorem fromString_composite_witness :
    PermBF.parseItem "read|bogus1|bogus2" = none ∧
    (PermBF.FromString "read|bogus1|bogus2" =
        fromStringPiecesModel PermBF "read|bogus1|bogus2" ∧
      ((PermBF.FromString "read|bogus1|bogus2").2 = none ↔
        ∀ piece ∈ goSplitPipe "read|bogus1|bogus2", (PermBF.parseItem piece).isSome)) :=
  ⟨by decide, fromString_composite PermBF "read|bogus1|bogus2" (by decide)⟩

lemma annotate_Bit (input : List BitfieldData) (i : Nat) :
    (annotate input i).Bit = 2 ^ i := rfl

lemma and_two_pow_ne_zero (value i : Nat) :
    (value &&& 2 ^ i ≠ 0) ↔ value.testBit i = true := by
  rw [Nat.and_two_pow]
  have hpow : 2 ^ i ≠ 0 := (pow_pos (by norm_num : (0 : Nat) < 2) i).ne'
  cases h : value.testBit i <;> simp [h, hpow]

lemma toString_scan_eq (value : Nat) (fn1 : AnnotatedBitfieldData → String)
    (l : List AnnotatedBitfieldData) (acc : List String) (rem : Nat) :
    l.foldl
      (fun (a : List String × Nat) data =>
        if value &&& data.Bit ≠ 0 then
          if fn1 data = "" then (a.1, a.2 ||| data.Bit)
          else (a.1 ++ [fn1 data], a.2)
        else a)
      (acc, rem) =
    (acc ++ (l.filter (fun data => value &&& data.Bit ≠ 0 ∧ fn1 data ≠ "")).map fn1,
     (l.filter (fun data => value &&& data.Bit ≠ 0 ∧ fn1 data = "")).foldl
       (fun r data => r ||| data.Bit) rem) := by
  induction l generalizing acc rem with
  | nil => simp
  | cons d rest ih =>
    rw [List.foldl_cons, List.filter_cons, List.filter_cons]
    dsimp only
    by_cases h1 : value &&& d.Bit = 0
    · rw [if_neg (not_not_intro h1), ih,
        if_neg (by simp [h1]), if_neg (by simp [h1])]
    · by_cases h2 : fn1 d = ""
      · rw [if_pos h1, if_pos h2, ih,
          if_neg (by simp [h1, h2]), if_pos (by simp [h1, h2]), List.foldl_cons]
      · rw [if_pos h1, if_neg h2, ih,
          if_pos (by simp [h1, h2]), if_neg (by simp [h1, h2])]
        simp [List.append_assoc]

/-- Modelled from the spec: both renderings scan bits 0–63 in ascending
index order, each set bit with a nonempty name contributes that name as one
piece, each set bit with an empty name ORs its mask `2 ^ i` into a remnant
accumulator, and when the remnant is nonzero or no named piece was produced
the synthesized remnant token is appended; pieces are joined with `"|"`. -/
def renderModel (value : Nat) (nameOf : Nat → String) (tok : Nat → String) : String :=
  let named := ((List.range 64).filter (fun i => value.testBit i ∧ nameOf i ≠ "")).map nameOf
  let remnant := ((List.range 64).filter (fun i => value.testBit i ∧ nameOf i = "")).foldl
    (fun r i => r ||| 2 ^ i) 0
  let pieces := if remnant ≠ 0 ∨ named = [] then named ++ [tok remnant] else named
  String.intercalate "|" pieces

lemma toStringImpl_eq_renderModel (typeName : String) (input : List BitfieldData)
    (value : Nat) (fn1 : AnnotatedBitfieldData → String) (fn2 : Nat → String)
    (hfn2 : ∀ r, fn2 r ≠ "") :
    (MakeBitfieldType typeName input).toStringImpl value fn1 fn2 =
      renderModel value (fun i => fn1 (annotate input i)) fn2 := by
  unfold BitfieldType.toStringImpl renderModel MakeBitfieldType annotatedSlots
  dsimp only
  rw [toString_scan_eq]
  rw [List.filter_map, List.filter_map, List.map_map, List.foldl_map,
    List.nil_append]
  simp only [Function.comp_def]
  have hpred1 :
      ∀ i ∈ List.range 64,
        (decide (value &&& (annotate input i).Bit ≠ 0 ∧ fn1 (annotate input i) ≠ "")) =
        (decide ((value.testBit i = true) ∧ fn1 (annotate input i) ≠ "")) := by
    intro i _
    rw [decide_eq_decide, annotate_Bit, and_two_pow_ne_zero]
  have hpred2 :
      ∀ i ∈ List.range 64,
        (decide (value &&& (annotate input i).Bit ≠ 0 ∧ fn1 (annotate input i) = "")) =
        (decide ((value.testBit i = true) ∧ fn1 (annotate input i) = "")) := by
    intro i _
    rw [decide_eq_decide, annotate_Bit, and_two_pow_ne_zero]
  rw [List.filter_congr hpred1, List.filter_congr hpred2]
  rw [if_neg (hfn2 _)]
  rfl

lemma string_eq_empty_of_length_zero (s : String) (h : s.length = 0) : s = "" := by
  cases s with
  | mk data =>
    cases data with
    | nil => rfl
    | cons c cs => simp [String.length] at h

lemma append_ne_empty_right (a b : String) (hb : b ≠ "") : a ++ b ≠ "" := by
  intro h
  have hlen := congrArg String.length h
  rw [String.length_append] at hlen
  have h0 : ("" : String).length = 0 := rfl
  exact hb (string_eq_empty_of_length_zero b (by omega))

lemma append_ne_empty_left (a b : String) (ha : a ≠ "") : a ++ b ≠ "" := by
  intro h
  have hlen := congrArg String.length h
  rw [String.length_append] at hlen
  have h0 : ("" : String).length = 0 := rfl
  exact ha (string_eq_empty_of_length_zero a (by omega))

lemma intercalate_go_length (sep : String) (l : List String) (acc : String) :
    acc.length ≤ (String.intercalate.go acc sep l).length := by
  induction l generalizing acc with
  | nil => simp [String.intercalate.go]
  | cons a t ih =>
    calc acc.length ≤ (acc ++ sep ++ a).length := by
          rw [String.length_append, String.length_append]; omega
      _ ≤ _ := by
          rw [String.intercalate.go]
          exact ih (acc ++ sep ++ a)

lemma intercalate_cons_ne_empty (a : String) (t : List String) (ha : a ≠ "") :
    String.intercalate "|" (a :: t) ≠ "" := by
  intro h
  have h1 : (String.intercalate "|" (a :: t)).length = 0 := by rw [h]; rfl
  have h2 : a.length ≤ (String.intercalate "|" (a :: t)).length :=
    intercalate_go_length "|" t a
  exact ha (string_eq_empty_of_length_zero a (by omega))

lemma renderModel_ne_empty (value : Nat) (nameOf : Nat → String) (tok : Nat → String)
    (htok : ∀ r, tok r ≠ "") : renderModel value nameOf tok ≠ "" := by
  unfold renderModel
  dsimp only
  have hmem : ∀ a ∈ ((List.range 64).filter
      (fun i => value.testBit i ∧ nameOf i ≠ "")).map nameOf, a ≠ "" := by
    intro a ha
    rw [List.mem_map] at ha
    obtain ⟨i, hi, rfl⟩ := ha
    rw [List.mem_filter] at hi
    have := hi.2
    simp only [decide_eq_true_eq] at this
    exact this.2
  split
  · rcases hn : ((List.range 64).filter
        (fun i => value.testBit i ∧ nameOf i ≠ "")).map nameOf with _ | ⟨a, t⟩
    · rw [List.nil_append]
      exact intercalate_cons_ne_empty _ [] (htok _)
    · rw [List.cons_append]
      exact intercalate_cons_ne_empty a _
        (hmem a (by rw [hn]; exact List.mem_cons_self a t))
  · next hcond =>
    rcases hn : ((List.range 64).filter
        (fun i => value.testBit i ∧ nameOf i ≠ "")).map nameOf with _ | ⟨a, t⟩
    · exact absurd (Or.inr hn) hcond
    · exact intercalate_cons_ne_empty a _
        (hmem a (by rw [hn]; exact List.mem_cons_self a t))

/-- C3: both renderings are exactly the spec's scan: bits 0–63 ascending,
named set bits contribute their symbolic (`ToGoString`) or display
(`ToString`) name as one piece, unnamed set bits are ORed into the remnant,
the remnant token (`TypeName(0)` / `TypeName(0x<hex>)` for symbolic, `0` /
`0x<hex>` for display) is appended when the remnant is nonzero or no piece
was produced (in particular at value 0), and pieces are joined with
`"|"`. -/
theorem rendering_characterization (typeName : String) (input : List BitfieldData)
    (value : Nat) :
    (MakeBitfieldType typeName input).ToGoString value =
      renderModel value (fun i => (annotate input i).GoName)
        (fun remnant =>
          if remnant = 0 then typeName ++ "(0)"
          else typeName ++ "(0x" ++ formatUintHex remnant ++ ")") ∧
    (MakeBitfieldType typeName input).ToString value =
      renderModel value (fun i => (annotate input i).Name)
        (fun remnant => if remnant = 0 then "0" else "0x" ++ formatUintHex remnant) := by
  have htokG : ∀ r : Nat,
      (if r = 0 then typeName ++ "(0)"
       else typeName ++ "(0x" ++ formatUintHex r ++ ")") ≠ "" := by
    intro r
    split
    · exact append_ne_empty_right _ _ (by decide)
    · exact append_ne_empty_right _ _ (by decide)
  have htokD : ∀ r : Nat, (if r = 0 then "0" else "0x" ++ formatUintHex r) ≠ "" := by
    intro r
    split
    · decide
    · exact append_ne_empty_left _ _ (by decide)
  exact ⟨toStringImpl_eq_renderModel typeName input value (fun data => data.GoName) _ htokG,
    toStringImpl_eq_renderModel typeName input value (fun data => data.Name) _ htokD⟩

/-- C9: for every bitfield type — the type name may even be empty — and
every value, both `ToString` and `ToGoString` return a nonempty string:
when the scan produces no named piece the remnant token is appended, and
neither remnant-token synthesizer can produce the empty string. -/
theorem rendering_never_empty (typeName : String) (input : List BitfieldData)
    (value : Nat) :
    (MakeBitfieldType typeName input).ToGoString value ≠ "" ∧
    (MakeBitfieldType typeName input).ToString value ≠ "" := by
  have htokG : ∀ r : Nat,
      (if r = 0 then typeName ++ "(0)"
       else typeName ++ "(0x" ++ formatUintHex r ++ ")") ≠ "" := by
    intro r
    split
    · exact append_ne_empty_right _ _ (by decide)
    · exact append_ne_empty_right _ _ (by decide)
  have htokD : ∀ r : Nat, (if r = 0 then "0" else "0x" ++ formatUintHex r) ≠ "" := by
    intro r
    split
    · decide
    · exact append_ne_empty_left _ _ (by decide)
  constructor
  · have h : (MakeBitfieldType typeName input).ToGoString value =
        renderModel value (fun i => (annotate input i).GoName)
          (fun remnant =>
            if remnant = 0 then typeName ++ "(0)"
            else typeName ++ "(0x" ++ formatUintHex remnant ++ ")") :=
      toStringImpl_eq_renderModel typeName input value (fun data => data.GoName) _ htokG
    rw [h]
    exact renderModel_ne_empty value _ _ htokG
  · have h : (MakeBitfieldType typeName input).ToString value =
        renderModel value (fun i => (annotate input i).Name)
          (fun remnant => if remnant = 0 then "0" else "0x" ++ formatUintHex remnant) :=
      toStringImpl_eq_renderModel typeName input value (fun data => data.Name) _ htokD
    rw [h]
    exact renderModel_ne_empty value _ _ htokD

/-- Rows for the C6 counterexample: a single row whose explicit JSON
literal is the byte string `7`. -/
def litRows : List EnumData :=
  [{ GoName := "A", Name := "a", JSON := some "7", Aliases := [] }]

/-- C6 counterexample: the raw input `7` is a bare JSON unsigned-integer
literal and `7 ≥ len(litRows) = 1`, yet the enum decoder returns ordinal 0
with no error — the row-literal byte-equality scan runs before integer
decoding, so the claimed range check never happens for this input. -/
theorem fromJSON_integer_range_counterexample :
    UnmarshalEnumFromJSON "E" litRows "7" = (0, none) ∧
    jsonDecodeUint "7" = some 7 ∧ litRows.length ≤ 7 :=
  ⟨by decide, by decide, by decide⟩

lemma jsonDecodeUint_ne_null (raw : String) (n : Nat)
    (h : jsonDecodeUint raw = some n) : raw ≠ nullBytes := by
  intro he
  rw [he] at h
  rw [show jsonDecodeUint nullBytes = none by decide] at h
  cases h

lemma jsonDecodeUint_string_none (raw : String) (n : Nat)
    (h : jsonDecodeUint raw = some n) : jsonDecodeString raw = none := by
  unfold jsonDecodeUint at h
  split at h
  · next hc =>
    obtain ⟨hne, hdig, -⟩ := hc
    unfold jsonDecodeString
    rw [if_neg ?_]
    intro hcond
    obtain ⟨-, hhead, -, -⟩ := hcond
    cases hd : raw.data with
    | nil =>
      rw [hd] at hhead
      cases hhead
    | cons c cs =>
      rw [hd] at hhead hdig
      have hc' : c = '"' := by
        simpa using hhead
      rw [List.all_cons, Bool.and_eq_true] at hdig
      have := hdig.1
      rw [hc'] at this
      simp at this
  · cases h

/-- C6 (amended): `FromJSON` of a bare JSON unsigned-integer literal
returns, for a bitfield, that integer verbatim with no error even when it
has bits set that no descriptor names; for an enum, provided no row's
explicit JSON literal byte-equals the raw input, it returns the integer as
the ordinal when it is below the row count and the value-range error
(carrying the value and the row count as exclusive limit) otherwise. -/
theorem fromJSON_bare_integer (bitfield : BitfieldType) (enumName : String)
    (enumData : List EnumData) (raw : String) (n : Nat)
    (hdec : jsonDecodeUint raw = some n)
    (hlit : ∀ row ∈ enumData, row.JSON ≠ some raw) :
    bitfield.FromJSON raw = (n, none) ∧
    UnmarshalEnumFromJSON enumName enumData raw =
      (if enumData.length ≤ n then
        (0, some (.invalidEnumValue enumName n enumData.length))
       else (n, none)) := by
  have hne := jsonDecodeUint_ne_null raw n hdec
  have hstr := jsonDecodeUint_string_none raw n hdec
  have hfind : enumData.findIdx? (fun row => row.JSON == some raw) = none := by
    rw [List.findIdx?_eq_none_iff]
    intro row hrow
    simpa using hlit row hrow
  constructor
  · unfold BitfieldType.FromJSON
    rw [if_neg hne, hstr, hdec]
  · unfold UnmarshalEnumFromJSON
    rw [if_neg hne, hfind, hstr, hdec]

/-- Witness for C6 (amended) at concrete inputs: raw `7` against the `Perm`
bitfield (bit 3 unnamed: 7 has only named bits 0–2, and 8 would set an
unnamed one — the check is verbatim acceptance) and the 3-row `Color` enum
(7 ≥ 3, so the range error fires). -/
theorem fromJSON_bare_integer_witness :
    jsonDecodeUint "7" = some 7 ∧
    (∀ row ∈ colorRows, row.JSON ≠ some "7") ∧
    (PermBF.FromJSON "7" = (7, none) ∧
      UnmarshalEnumFromJSON "Color" colorRows "7" =
        (if colorRows.length ≤ 7 then
          (0, some (.invalidEnumValue "Color" 7 colorRows.length))
         else (7, none))) :=
  ⟨by decide, by decide,
    fromJSON_bare_integer PermBF "Color" colorRows "7" 7 (by decide) (by decide)⟩

/-- The raw names registered for one slot: nothing for an unnamed slot,
otherwise the Go name (when present), the display name (when present) and
every alias. -/
def slotRawNames (d : AnnotatedBitfieldData) : List String :=
  if d.GoName = "" ∧ d.Name = "" then []
  else (if d.GoName = "" then [] else [d.GoName]) ++
       (if d.Name = "" then [] else [d.Name]) ++ d.Aliases

/-- The keys one slot contributes to the name index: each raw name, both
verbatim and lowercased. -/
def slotKeys (d : AnnotatedBitfieldData) : List String :=
  ((slotRawNames d).map (fun n => [n, goToLower n])).flatten

lemma mem_slotKeys (d : AnnotatedBitfieldData) (q : String) :
    q ∈ slotKeys d ↔ ∃ n ∈ slotRawNames d, q = n ∨ q = goToLower n := by
  unfold slotKeys
  simp only [List.mem_flatten, List.mem_map]
  constructor
  · rintro ⟨l, ⟨n, hn, rfl⟩, hq⟩
    refine ⟨n, hn, ?_⟩
    simpa using hq
  · rintro ⟨n, hn, hq⟩
    exact ⟨[n, goToLower n], ⟨n, hn, rfl⟩, by simpa using hq⟩

lemma strMap_insert_isSome {α : Type} (m : StrMap α) (k : String) (v : α) (q : String) :
    ((m.insert k v) q).isSome ↔ q = k ∨ (m q).isSome := by
  unfold StrMap.insert
  split <;> simp [*]

lemma aliasFold_isSome (ptr : AnnotatedBitfieldData) (l : List String)
    (m : StrMap AnnotatedBitfieldData) (q : String) :
    ((l.foldl (fun acc a => (acc.insert a ptr).insert (goToLower a) ptr) m) q).isSome ↔
      (∃ a ∈ l, q = a ∨ q = goToLower a) ∨ (m q).isSome := by
  induction l generalizing m with
  | nil => simp
  | cons a t ih =>
    rw [List.foldl_cons, ih, strMap_insert_isSome, strMap_insert_isSome]
    constructor
    · rintro (⟨b, hb, hq⟩ | h | h | h)
      · exact Or.inl ⟨b, List.mem_cons_of_mem a hb, hq⟩
      · exact Or.inl ⟨a, List.mem_cons_self a t, Or.inr h⟩
      · exact Or.inl ⟨a, List.mem_cons_self a t, Or.inl h⟩
      · exact Or.inr h
    · rintro (⟨b, hb, hq⟩ | h)
      · rcases List.mem_cons.mp hb with rfl | hb
        · rcases hq with hq | hq
          · exact Or.inr (Or.inr (Or.inl hq))
          · exact Or.inr (Or.inl hq)
        · exact Or.inl ⟨b, hb, hq⟩
      · exact Or.inr (Or.inr (Or.inr h))

lemma insertPair_isSome (ptr : AnnotatedBitfieldData) (m : StrMap AnnotatedBitfieldData)
    (s q : String) :
    ((if s = "" then m else (m.insert s ptr).insert (goToLower s) ptr) q).isSome ↔
      (∃ n ∈ (if s = "" then ([] : List String) else [s]), q = n ∨ q = goToLower n) ∨
        (m q).isSome := by
  by_cases hs : s = ""
  · simp [hs]
  · rw [if_neg hs, if_neg hs, strMap_insert_isSome, strMap_insert_isSome]
    constructor
    · rintro (h | h | h)
      · exact Or.inl ⟨s, List.mem_singleton_self s, Or.inr h⟩
      · exact Or.inl ⟨s, List.mem_singleton_self s, Or.inl h⟩
      · exact Or.inr h
    · rintro (⟨n, hn, hq⟩ | h)
      · rcases List.mem_singleton.mp hn with rfl
        rcases hq with hq | hq
        · exact Or.inr (Or.inl hq)
        · exact Or.inl hq
      · exact Or.inr (Or.inr h)

lemma insertSlot_isSome (m : StrMap AnnotatedBitfieldData) (ptr : AnnotatedBitfieldData)
    (q : String) :
    ((insertSlot m ptr) q).isSome ↔ q ∈ slotKeys ptr ∨ (m q).isSome := by
  rw [mem_slotKeys]
  unfold insertSlot slotRawNames
  by_cases h0 : ptr.GoName = "" ∧ ptr.Name = ""
  · simp [h0]
  · rw [if_neg h0, if_neg h0]
    rw [aliasFold_isSome, insertPair_isSome, insertPair_isSome]
    simp only [List.mem_append, or_and_right, exists_or, or_assoc]
    constructor
    · rintro (h | h | h | h)
      · exact Or.inr (Or.inr (Or.inl h))
      · exact Or.inr (Or.inl h)
      · exact Or.inl h
      · exact Or.inr (Or.inr (Or.inr h))
    · rintro (h | h | h | h)
      · exact Or.inr (Or.inr (Or.inl h))
      · exact Or.inr (Or.inl h)
      · exact Or.inl h
      · exact Or.inr (Or.inr (Or.inr h))

lemma byName_fold_isSome (l : List AnnotatedBitfieldData)
    (m : StrMap AnnotatedBitfieldData) (q : String) :
    ((l.foldl insertSlot m) q).isSome ↔
      (∃ d ∈ l, q ∈ slotKeys d) ∨ (m q).isSome := by
  induction l generalizing m with
  | nil => simp
  | cons d t ih =>
    rw [List.foldl_cons, ih, insertSlot_isSome]
    constructor
    · rintro (⟨e, he, hk⟩ | hk | hm)
      · exact Or.inl ⟨e, List.mem_cons_of_mem d he, hk⟩
      · exact Or.inl ⟨d, List.mem_cons_self d t, hk⟩
      · exact Or.inr hm
    · rintro (⟨e, he, hk⟩ | hm)
      · rcases List.mem_cons.mp he with rfl | he
        · exact Or.inr (Or.inl hk)
        · exact Or.inl ⟨e, he, hk⟩
      · exact Or.inr (Or.inr hm)

lemma byName_isSome (typeName : String) (input : List BitfieldData) (q : String) :
    (((MakeBitfieldType typeName input).ByName) q).isSome ↔
      ∃ d ∈ annotatedSlots input, q ∈ slotKeys d := by
  unfold MakeBitfieldType
  dsimp only
  rw [byName_fold_isSome]
  simp [StrMap.empty]

lemma lookupName_isSome (bitfield : BitfieldType) (q : String) :
    (bitfield.lookupName q).isSome ↔
      (bitfield.ByName q).isSome ∨ (bitfield.ByName (goToLower q)).isSome := by
  unfold BitfieldType.lookupName
  cases h : bitfield.ByName q <;> simp [h]

lemma lower_rawName_mem_slotKeys (d : AnnotatedBitfieldData) (n : String)
    (hn : n ∈ slotRawNames d) : goToLower n ∈ slotKeys d := by
  rw [mem_slotKeys]
  exact ⟨n, hn, Or.inr rfl⟩

/-- Modelled from the spec: the canonical allowed-names list — for every
used descriptor among the first 64, its display name falling back to its
symbolic name, in index order. -/
def canonicalBitfieldNames (input : List BitfieldData) : List String :=
  (input.take 64).filterMap
    (fun d => if d.GoName = "" ∧ d.Name = "" then none
      else some (if d.Name = "" then d.GoName else d.Name))

lemma filterMap_range_getD {α β : Type} (l : List α) (f : α → Option β) (d₀ : α)
    (n : Nat) :
    (List.range n).filterMap
      (fun i => if i < l.length then f (l.getD i d₀) else none) =
      (l.take n).filterMap f := by
  induction n with
  | zero => simp
  | succ n ih =>
    rw [List.range_succ, List.filterMap_append, ih, List.take_succ,
      List.filterMap_append]
    congr 1
    rcases h : l[n]? with _ | a
    · have hlen : l.length ≤ n := List.getElem?_eq_none_iff.mp h
      simp [List.filterMap_cons, Nat.not_lt.mpr hlen]
    · have hlen : n < l.length := by
        by_contra hc
        rw [List.getElem?_eq_none_iff.mpr (Nat.not_lt.mp hc)] at h
        cases h
      have hg : l.getD n d₀ = a := by
        rw [List.getD_eq_getElem?_getD, h]
        rfl
      simp only [List.filterMap_cons, if_pos hlen, hg, Option.toList]
      cases hf : f a <;> simp [List.filterMap_cons, hf]

lemma names_eq_canonical (typeName : String) (input : List BitfieldData) :
    (MakeBitfieldType typeName input).Names = canonicalBitfieldNames input := by
  unfold MakeBitfieldType canonicalBitfieldNames annotatedSlots
  dsimp only
  rw [List.filterMap_map]
  simp only [Function.comp_def]
  have hpt : ∀ i ∈ List.range 64,
      (fun i => if (annotate input i).GoName = "" ∧ (annotate input i).Name = ""
        then none else some (displayName (annotate input i))) i =
      (fun i => if i < (input.take 64).length then
          (if ((input.take 64).getD i ⟨"", "", []⟩).GoName = "" ∧
              ((input.take 64).getD i ⟨"", "", []⟩).Name = "" then none
           else some (if ((input.take 64).getD i ⟨"", "", []⟩).Name = ""
             then ((input.take 64).getD i ⟨"", "", []⟩).GoName
             else ((input.take 64).getD i ⟨"", "", []⟩).Name))
        else none) i := by
    intro i hi
    rw [List.mem_range] at hi
    by_cases hc : i < input.length
    · have hmin : i < min input.length 64 := by omega
      have hlen : i < (input.take 64).length := by
        rw [List.length_take]
        omega
      have hg : (input.take 64).getD i ⟨"", "", []⟩ = input.getD i ⟨"", "", []⟩ := by
        rw [List.getD_eq_getElem?_getD, List.getD_eq_getElem?_getD, List.getElem?_take,
          if_pos hi]
      simp only [annotate, slotData, displayName, if_pos hmin, if_pos hlen, hg]
    · simp [annotate, slotData, displayName, hc]
  rw [List.filterMap_congr hpt]
  have heq := filterMap_range_getD (input.take 64)
    (fun d => if d.GoName = "" ∧ d.Name = "" then none
      else some (if d.Name = "" then d.GoName else d.Name)) ⟨"", "", []⟩ 64
  rw [heq, List.take_take]
  simp

/-- C5: name lookup is case-insensitive for the symbolic name, display name
and every alias, in both the bitfield resolver's index lookup and the enum
`ParseEnum` scan; lookup of an unregistered string fails with an
InvalidName error whose `Allowed` list is the canonical display-name list
in index/ordinal order (display name falling back to symbolic name for
bitfields, display names for enums). -/
theorem name_lookup_case_insensitive
    (typeName : String) (input : List BitfieldData) (str : String)
    (enumName : String) (enumData : List EnumData) (strE : String) :
    (((MakeBitfieldType typeName input).lookupName str).isSome ↔
      ∃ d ∈ annotatedSlots input, str ∈ slotKeys d ∨ goToLower str ∈ slotKeys d) ∧
    (∀ d ∈ annotatedSlots input, ∀ n ∈ slotRawNames d,
      goToLower str = goToLower n →
      ((MakeBitfieldType typeName input).lookupName str).isSome) ∧
    ((MakeBitfieldType typeName input).Names = canonicalBitfieldNames input) ∧
    ((MakeBitfieldType typeName input).parseItem str = none →
      goSplitPipe str = [str] →
      (MakeBitfieldType typeName input).FromString str =
        (0, some (.invalidBitfieldName ⟨typeName, str, canonicalBitfieldNames input⟩))) ∧
    (∀ row ∈ enumData, ∀ n ∈ row.Name :: row.GoName :: row.Aliases,
      goToLower strE = goToLower n → (ParseEnum enumName enumData strE).2 = none) ∧
    ((∀ row ∈ enumData, enumRowMatches strE row = false) →
      ParseEnum enumName enumData strE =
        (0, some (.invalidEnumName enumName strE (MakeAllowedEnumNames enumData)))) := by
  refine ⟨?_, ?_, names_eq_canonical typeName input, ?_, ?_, ?_⟩
  · rw [lookupName_isSome, byName_isSome, byName_isSome]
    constructor
    · rintro (⟨d, hd, hk⟩ | ⟨d, hd, hk⟩)
      · exact ⟨d, hd, Or.inl hk⟩
      · exact ⟨d, hd, Or.inr hk⟩
    · rintro ⟨d, hd, hk | hk⟩
      · exact Or.inl ⟨d, hd, hk⟩
      · exact Or.inr ⟨d, hd, hk⟩
  · intro d hd n hn hlow
    rw [lookupName_isSome]
    refine Or.inr ?_
    rw [byName_isSome]
    refine ⟨d, hd, ?_⟩
    rw [hlow]
    exact lower_rawName_mem_slotKeys d n hn
  · intro hp hs
    have hT : (MakeBitfieldType typeName input).TypeName = typeName := rfl
    unfold BitfieldType.FromString
    rw [hp, hs]
    dsimp only
    rw [List.foldl_cons, List.foldl_nil, hp]
    simp only [mkNameError, hT, names_eq_canonical typeName input, List.nil_append]
  · intro row hrow n hn hlow
    have hmatch : enumRowMatches strE row = true := by
      unfold enumRowMatches goEqualFold
      rcases List.mem_cons.mp hn with rfl | hn'
      · simp [hlow]
      · rcases List.mem_cons.mp hn' with rfl | hn''
        · simp [hlow]
        · simp only [Bool.or_eq_true, List.any_eq_true]
          exact Or.inr ⟨n, hn'', by simp [hlow]⟩
    unfold ParseEnum
    rcases hf : enumData.findIdx? (enumRowMatches strE) with _ | idx
    · rw [List.findIdx?_eq_none_iff] at hf
      rw [hf row hrow] at hmatch
      cases hmatch
    · rfl
  · intro hall
    unfold ParseEnum
    rw [List.findIdx?_eq_none_iff.mpr hall]

/-- Witness for C5 at concrete inputs: `READ` resolves case-insensitively
against the registered `Read`, `bogus` fails with the canonical allowed
list, `GREEN` parses case-insensitively against the `green` row, and the
enum lookup of `bogus` fails with the display-name list. -/
theorem name_lookup_case_insensitive_witness :
    (((MakeBitfieldType "Perm" permData).lookupName "READ").isSome = true) ∧
    ((MakeBitfieldType "Perm" permData).FromString "bogus" =
      (0, some (.invalidBitfieldName ⟨"Perm", "bogus", canonicalBitfieldNames permData⟩))) ∧
    ((ParseEnum "Color" colorRows "GREEN").2 = none) ∧
    (ParseEnum "Color" colorRows "bogus" =
      (0, some (.invalidEnumName "Color" "bogus" (MakeAllowedEnumNames colorRows)))) :=
  ⟨(name_lookup_case_insensitive "Perm" permData "READ" "Color" colorRows "GREEN").2.1
      (annotate permData 0) (by decide) "Read" (by decide) (by decide),
   (name_lookup_case_insensitive "Perm" permData "bogus" "Color" colorRows "GREEN").2.2.2.1
      (by decide) (by decide),
   (name_lookup_case_insensitive "Perm" permData "READ" "Color" colorRows "GREEN").2.2.2.2.1
      ⟨"ColorGreen", "green", none, []⟩ (by decide) "green" (by decide) (by decide),
   (name_lookup_case_insensitive "Perm" permData "READ" "Color" colorRows "bogus").2.2.2.2.2
      (by decide)⟩

end Enumhelper
